import Mathlib

/-!
Verification of the span-extraction and alignment-scoring engine of the
`xib` repository (`xib/model/extract_model.py`), via a shallow embedding
of its core functions into Lean.

The DP table of `ExtractModel._get_matches` is embedded as a pair-valued
function `fsP msl mtl sub ls lt : Bool × α`, whose first component records
whether the key `(ls, lt)` is present in the python dict `fs` after the
transition loops have run, and whose second component is the value the
assembled table `f` holds at that cell (the dict value when present, the
fill value `99.9` otherwise).  `sub ls lt` is the precomputed substitution
cost looked up at cell `(ls, lt)` (i.e. the distance between span position
`ls - 1` and the vocabulary entry's unit at position `lt - 1`).
-/

namespace Xib

variable {α : Type*}

/-- The loop bounds of the transition loops in `_get_matches`:
`for ls in range(1, msl + 1): for lt in range(max(ls - 2, 1), min(ls + 2, mtl + 1))`.
`inBand msl mtl ls lt` holds exactly when the cell `(ls, lt)` is visited. -/
def inBand (msl mtl ls lt : ℕ) : Bool :=
  decide (1 ≤ ls ∧ ls ≤ msl ∧ max (ls - 2) 1 ≤ lt ∧ lt < min (ls + 2) (mtl + 1))

/-- `all_s.min(dim=-1)` over the stacked transition list; the empty case is
never reached by an assigned cell and is given the fill value `99.9`. -/
def minLst [LinearOrderedField α] : List α → α
  | [] => 999 / 10
  | a :: r => r.foldl min a

/-- One row (`ls` fixed) of the DP table of `_get_matches`.  `prev` is row
`ls - 1`.  A cell in the visited band collects the transitions
`fs[(ls-1, lt)] + 100`, `fs[(ls, lt-1)] + 100`, `fs[(ls-1, lt-1)] + sub`,
each guarded by presence of the predecessor key in `fs` (pair's `Bool`),
and stores their minimum; any other cell is absent and is later filled
with `99.9` when `f` is assembled. -/
def fsRow [LinearOrderedField α] (msl mtl : ℕ) (sub : ℕ → ℕ → α) (ls : ℕ)
    (prev : ℕ → Bool × α) : ℕ → Bool × α
  | 0 => (decide (ls ≤ msl), (ls : α))
  | lt + 1 =>
    bif inBand msl mtl ls (lt + 1) &&
        ((prev (lt + 1)).1 || (fsRow msl mtl sub ls prev lt).1 || (prev lt).1) then
      (true,
        minLst ((bif (prev (lt + 1)).1 then [(prev (lt + 1)).2 + 100] else []) ++
          (bif (fsRow msl mtl sub ls prev lt).1 then
            [(fsRow msl mtl sub ls prev lt).2 + 100] else []) ++
          (bif (prev lt).1 then [(prev lt).2 + sub ls (lt + 1)] else [])))
    else (false, 999 / 10)

/-- The DP table of `_get_matches`: base row `f(0, j) = j` (for `j ≤ mtl`),
base column `f(i, 0) = i` (for `i ≤ msl`), rows `ls ≥ 1` via `fsRow`. -/
def fsP [LinearOrderedField α] (msl mtl : ℕ) (sub : ℕ → ℕ → α) : ℕ → ℕ → Bool × α
  | 0 => fun lt => (decide (lt ≤ mtl), (lt : α))
  | ls + 1 => fsRow msl mtl sub (ls + 1) (fsP msl mtl sub ls)

/-- Whether the key `(ls, lt)` is present in the dict `fs` after the loops. -/
def fsMem [LinearOrderedField α] (msl mtl : ℕ) (sub : ℕ → ℕ → α) (ls lt : ℕ) : Bool :=
  (fsP msl mtl sub ls lt).1

/-- The value the assembled table `f` holds at `(ls, lt)`:
the DP value when the key is present, `99.9` otherwise. -/
def fsVal [LinearOrderedField α] (msl mtl : ℕ) (sub : ℕ → ℕ → α) (ls lt : ℕ) : α :=
  (fsP msl mtl sub ls lt).2

section DPLemmas

variable [LinearOrderedField α] (msl mtl : ℕ) (sub : ℕ → ℕ → α)

lemma fsMem_zero_row (lt : ℕ) : fsMem msl mtl sub 0 lt = decide (lt ≤ mtl) := rfl

lemma fsMem_zero_col (ls : ℕ) : fsMem msl mtl sub (ls + 1) 0 = decide (ls + 1 ≤ msl) := rfl

lemma fsMem_succ_succ (ls lt : ℕ) :
    fsMem msl mtl sub (ls + 1) (lt + 1) =
      (inBand msl mtl (ls + 1) (lt + 1) &&
        (fsMem msl mtl sub ls (lt + 1) || fsMem msl mtl sub (ls + 1) lt ||
          fsMem msl mtl sub ls lt)) := by
  show (fsRow msl mtl sub (ls + 1) (fsP msl mtl sub ls) (lt + 1)).1 = _
  rw [fsRow]
  cases h : inBand msl mtl (ls + 1) (lt + 1) &&
      ((fsP msl mtl sub ls (lt + 1)).1 ||
        (fsRow msl mtl sub (ls + 1) (fsP msl mtl sub ls) lt).1 ||
        (fsP msl mtl sub ls lt).1) <;>
    simp_all [fsMem, fsP]

/-- Inside the visited band the diagonal predecessor is always a present key,
so the stacked transition list is never empty and every visited cell is
assigned: presence in `fs` coincides with the band condition. -/
lemma fsMem_eq_inBand : ∀ ls lt : ℕ,
    fsMem msl mtl sub (ls + 1) (lt + 1) = inBand msl mtl (ls + 1) (lt + 1) := by
  intro ls
  induction ls with
  | zero =>
    intro lt
    rw [fsMem_succ_succ]
    cases hb : inBand msl mtl 1 (lt + 1)
    · simp
    · have hp : lt ≤ mtl := by
        have := of_decide_eq_true hb
        omega
      simp [fsMem_zero_row, hp]
  | succ ls ih =>
    intro lt
    rw [fsMem_succ_succ]
    cases hb : inBand msl mtl (ls + 2) (lt + 1)
    · simp
    · have hband := of_decide_eq_true hb
      match lt with
      | 0 =>
        have hp : ls + 1 ≤ msl := by omega
        simp [fsMem_zero_col, hp]
      | lt' + 1 =>
        have hdiag : inBand msl mtl (ls + 1) (lt' + 1) = true := by
          apply decide_eq_true
          omega
        rw [ih lt', hdiag]
        simp

/-- A cell of the grid (with `ls, lt ≥ 1`) whose key is absent from `fs` is
filled with the sentinel `99.9` when `f` is assembled. -/
lemma fsVal_of_not_mem (ls lt : ℕ) (hls : 1 ≤ ls) (hlt : 1 ≤ lt)
    (h : fsMem msl mtl sub ls lt = false) :
    fsVal msl mtl sub ls lt = 999 / 10 := by
  match ls, hls, lt, hlt with
  | ls' + 1, _, lt' + 1, _ =>
    have hcond : (inBand msl mtl (ls' + 1) (lt' + 1) &&
        ((fsP msl mtl sub ls' (lt' + 1)).1 ||
          (fsRow msl mtl sub (ls' + 1) (fsP msl mtl sub ls') lt').1 ||
          (fsP msl mtl sub ls' lt').1)) = false := by
      have := (fsMem_succ_succ msl mtl sub ls' lt').symm.trans h
      exact this
    show (fsRow msl mtl sub (ls' + 1) (fsP msl mtl sub ls') (lt' + 1)).2 = _
    rw [fsRow, hcond, cond_false]

/-- When a visited cell and all three of its predecessors are present keys,
the stored value is the minimum of the three transitions, with the constant
`100` added on the insertion and deletion transitions. -/
lemma fsVal_rec (ls lt : ℕ)
    (h : fsMem msl mtl sub (ls + 1) (lt + 1) = true)
    (h1 : fsMem msl mtl sub ls (lt + 1) = true)
    (h2 : fsMem msl mtl sub (ls + 1) lt = true)
    (h3 : fsMem msl mtl sub ls lt = true) :
    fsVal msl mtl sub (ls + 1) (lt + 1) =
      min (fsVal msl mtl sub ls (lt + 1) + 100)
        (min (fsVal msl mtl sub (ls + 1) lt + 100)
          (fsVal msl mtl sub ls lt + sub (ls + 1) (lt + 1))) := by
  have hc : fsMem msl mtl sub (ls + 1) (lt + 1) =
      (inBand msl mtl (ls + 1) (lt + 1) &&
        (fsMem msl mtl sub ls (lt + 1) || fsMem msl mtl sub (ls + 1) lt ||
          fsMem msl mtl sub ls lt)) := fsMem_succ_succ msl mtl sub ls lt
  rw [h, h1, h2, h3] at hc
  have hband : inBand msl mtl (ls + 1) (lt + 1) = true := by
    simpa using hc.symm
  show (fsRow msl mtl sub (ls + 1) (fsP msl mtl sub ls) (lt + 1)).2 = _
  rw [fsRow]
  have e1 : (fsP msl mtl sub ls (lt + 1)).1 = true := h1
  have e2 : (fsRow msl mtl sub (ls + 1) (fsP msl mtl sub ls) lt).1 = true := h2
  have e3 : (fsP msl mtl sub ls lt).1 = true := h3
  rw [e1, e2, e3, hband]
  simp only [Bool.true_and, Bool.or_self, cond_true, List.cons_append, List.nil_append]
  show minLst _ = _
  show ((fsP msl mtl sub ls (lt + 1)).2 + 100) ⊓ _ ⊓ _ = _
  rw [min_assoc]
  rfl

end DPLemmas

lemma le_foldl_min [LinearOrderedField α] (c : α) :
    ∀ (l : List α) (a : α), c ≤ a → (∀ x ∈ l, c ≤ x) → c ≤ l.foldl min a := by
  intro l
  induction l with
  | nil => intro a ha _; exact ha
  | cons b r ih =>
    intro a ha hl
    exact ih (min a b) (le_min ha (hl b (List.mem_cons_self b r)))
      fun x hx => hl x (List.mem_cons_of_mem b hx)

lemma zero_le_minLst [LinearOrderedField α] (l : List α) (h : ∀ x ∈ l, (0 : α) ≤ x) :
    (0 : α) ≤ minLst l := by
  cases l with
  | nil => norm_num [minLst]
  | cons a r =>
    exact le_foldl_min 0 r a (h a (List.mem_cons_self a r))
      fun x hx => h x (List.mem_cons_of_mem a hx)

lemma mem_condList [LinearOrderedField α] {b : Bool} {v x : α}
    (hx : x ∈ (bif b then [v] else [])) : x = v := by
  cases b <;> simp_all

/-- Every entry of the assembled DP table is nonnegative whenever every
substitution cost is: the base cases are the casts of `i` and `j`, each
transition adds `100` or a nonnegative substitution cost, and unassigned
cells are filled with `99.9`. -/
lemma fsP_snd_nonneg [LinearOrderedField α] (msl mtl : ℕ) (sub : ℕ → ℕ → α)
    (hsub : ∀ a b, 0 ≤ sub a b) : ∀ ls lt, 0 ≤ (fsP msl mtl sub ls lt).2 := by
  intro ls
  induction ls with
  | zero => intro lt; exact Nat.cast_nonneg lt
  | succ ls ih =>
    show ∀ lt, 0 ≤ (fsRow msl mtl sub (ls + 1) (fsP msl mtl sub ls) lt).2
    intro lt
    induction lt with
    | zero => exact Nat.cast_nonneg (ls + 1)
    | succ lt iht =>
      rw [fsRow]
      cases hc : inBand msl mtl (ls + 1) (lt + 1) &&
          ((fsP msl mtl sub ls (lt + 1)).1 ||
            (fsRow msl mtl sub (ls + 1) (fsP msl mtl sub ls) lt).1 ||
            (fsP msl mtl sub ls lt).1)
      · norm_num
      · simp only [cond_true]
        apply zero_le_minLst
        intro x hx
        simp only [List.append_assoc, List.mem_append] at hx
        rcases hx with hx | hx | hx
        · rw [mem_condList hx]
          have := ih (lt + 1)
          positivity
        · rw [mem_condList hx]
          positivity
        · rw [mem_condList hx]
          have h1 := ih lt
          have h2 := hsub (ls + 1) (lt + 1)
          positivity

/-- Modelled from the spec: the "cheap-edit mode" variant of §4.4/C2, in
which the insertion and deletion transitions add unit cost `1` instead of
the constant `100`.  No such variant exists in `src/`; this definition
follows the spec's words and exists only for comparison with `fsRow`. -/
def fsRowUnit [LinearOrderedField α] (msl mtl : ℕ) (sub : ℕ → ℕ → α) (ls : ℕ)
    (prev : ℕ → Bool × α) : ℕ → Bool × α
  | 0 => (decide (ls ≤ msl), (ls : α))
  | lt + 1 =>
    bif inBand msl mtl ls (lt + 1) &&
        ((prev (lt + 1)).1 || (fsRowUnit msl mtl sub ls prev lt).1 || (prev lt).1) then
      (true,
        minLst ((bif (prev (lt + 1)).1 then [(prev (lt + 1)).2 + 1] else []) ++
          (bif (fsRowUnit msl mtl sub ls prev lt).1 then
            [(fsRowUnit msl mtl sub ls prev lt).2 + 1] else []) ++
          (bif (prev lt).1 then [(prev lt).2 + sub ls (lt + 1)] else [])))
    else (false, 999 / 10)

/-- Modelled from the spec: the full table of the cheap-edit variant. -/
def fsPUnit [LinearOrderedField α] (msl mtl : ℕ) (sub : ℕ → ℕ → α) : ℕ → ℕ → Bool × α
  | 0 => fun lt => (decide (lt ≤ mtl), (lt : α))
  | ls + 1 => fsRowUnit msl mtl sub (ls + 1) (fsPUnit msl mtl sub ls)

/-- Modelled from the spec: the assembled table of the cheap-edit variant. -/
def fsValUnit [LinearOrderedField α] (msl mtl : ℕ) (sub : ℕ → ℕ → α) (ls lt : ℕ) : α :=
  (fsPUnit msl mtl sub ls lt).2

/-! ### Distance functions (`_get_hamming_matrix`, `_get_cosine_matrix`) -/

/-- One entry of `_get_hamming_matrix`:
`(x.unsqueeze(dim=1) - y).abs().sum(dim=-1) / 4`, i.e. the sum of absolute
coordinate differences divided by the constant `4`. -/
def hammingDist [LinearOrderedField α] {d : ℕ} (x y : Fin d → α) : α :=
  (∑ k, |x k - y k|) / 4

/-- `_get_hamming_matrix` as a matrix over rows of `X` and `Y`. -/
def get_hamming_matrix [LinearOrderedField α] {nx ny d : ℕ}
    (X : Fin nx → Fin d → α) (Y : Fin ny → Fin d → α) (i : Fin nx) (j : Fin ny) : α :=
  hammingDist (X i) (Y j)

/-- Modelled from the spec (comparison definition for the hamming claim):
the mean absolute difference over the embedding's feature dimension,
scaled by the constant divisor `4`. -/
def hammingDistSpec [LinearOrderedField α] {d : ℕ} (x y : Fin d → α) : α :=
  ((∑ k, |x k - y k|) / d) / 4

/-- One entry of `_get_cosine_matrix`: `(1 - cos) / 2` with
`cos = (x·y) / (‖x‖ + 1e-8) / (‖y‖ + 1e-8)` (epsilon-stabilized norms). -/
noncomputable def cosineDist {d : ℕ} (x y : Fin d → ℝ) : ℝ :=
  (1 - (∑ k, x k * y k) / (Real.sqrt (∑ k, x k ^ 2) + 1 / 10 ^ 8)
    / (Real.sqrt (∑ k, y k ^ 2) + 1 / 10 ^ 8)) / 2

/-- `_get_cosine_matrix` as a matrix over rows of `X` and `Y`. -/
noncomputable def get_cosine_matrix {nx ny d : ℕ}
    (X : Fin nx → Fin d → ℝ) (Y : Fin ny → Fin d → ℝ) (i : Fin nx) (j : Fin ny) : ℝ :=
  cosineDist (X i) (Y j)

/-! ### Span-position gathering (`_extract_one_span`) -/

/-- The gathered word position of `_extract_one_span`:
`word_pos = (viable_starts + word_pos_offsets).clamp(max=batch.max_length - 1)`.
The clamp bound is the batch-wide padded length `batch.max_length`, not the
span's own sequence length. -/
def word_pos (max_length start offset : ℕ) : ℕ :=
  min (start + offset) (max_length - 1)

/-- Modelled from the spec (comparison definition for the clamping claim):
position indices past the true end of the span's own sequence are clamped
at `sequence_length - 1` of that sequence. -/
def word_pos_spec (sequence_length start offset : ℕ) : ℕ :=
  min (start + offset) (sequence_length - 1)

/-! ### `_soft_threshold` and the soft min/max surrogates -/

/-- `torch.nn.functional.celu` with `alpha = 1`:
`celu(z) = z` for `z > 0` and `exp(z) - 1` otherwise. -/
noncomputable def celu (z : ℝ) : ℝ :=
  if 0 < z then z else Real.exp z - 1

/-- `_soft_threshold(x) = (celu(1 - 2 * x) + 1) / 2`. -/
noncomputable def soft_threshold (x : ℝ) : ℝ :=
  (celu (1 - 2 * x) + 1) / 2

/-- First index attaining the minimum of `v` (the index `torch.min` returns). -/
def argminFirst [LinearOrder β] {m : ℕ} (v : Fin (m + 1) → β) : Fin (m + 1) :=
  (List.finRange (m + 1)).foldl (fun best i => if v i < v best then i else best) 0

/-- First index attaining the maximum of `v` (the index `torch.max` returns). -/
def argmaxFirst [LinearOrder β] {m : ℕ} (v : Fin (m + 1) → β) : Fin (m + 1) :=
  (List.finRange (m + 1)).foldl (fun best i => if v best < v i then i else best) 0

/-- The weights `(x / T).log_softmax(dim).exp()` of `_soft_max`. -/
noncomputable def softmaxWeights (T : ℝ) {m : ℕ} (v : Fin m → ℝ) (i : Fin m) : ℝ :=
  Real.exp (v i / T) / ∑ j, Real.exp (v j / T)

/-- `_soft_max`: the softmax-weighted sum as value, the hard argmax as index. -/
noncomputable def soft_max (T : ℝ) {m : ℕ} (v : Fin (m + 1) → ℝ) : ℝ × Fin (m + 1) :=
  (∑ i, v i * softmaxWeights T v i, argmaxFirst v)

/-- `_soft_min`: weights are the softmax of `-x / T`; index is the hard argmin. -/
noncomputable def soft_min (T : ℝ) {m : ℕ} (v : Fin (m + 1) → ℝ) : ℝ × Fin (m + 1) :=
  (∑ i, v i * softmaxWeights T (fun j => -v j) i, argminFirst v)

/-! ### Threshold state mutated inside `_get_matches` -/

/-- The new value of `self._thresh` after the `if self.training:` block of
`_get_matches`: multiply by `anneal_factor` when already set, initialize to
`init_threshold` otherwise, then floor at `0.001`. -/
def stepThresh [LinearOrderedField α] (anneal_factor init_threshold : α) : Option α → α
  | some t => max (t * anneal_factor) (1 / 1000)
  | none => max init_threshold (1 / 1000)

/-- The threshold state after one `_get_matches` call: mutated when
`self.training` is set, untouched otherwise. -/
def threshAfterGetMatches [LinearOrderedField α] (training : Bool)
    (anneal_factor init_threshold : α) (t : Option α) : Option α :=
  bif training then some (stepThresh anneal_factor init_threshold t) else t

/-! ### The relaxation selector at the end of `_get_matches` -/

/-- The five `Matches` variants (`MatchesLv0` .. `MatchesLv4`), over a
vocabulary of `n + 1` entries. -/
inductive MatchesRes (n : ℕ) where
  | lv0 (ed_dist : Fin (n + 1) → ℝ) (matched_ed_dist : ℝ) (matched_vocab : Fin (n + 1))
        (matched_length : ℕ) (matched_thresh matched_score : ℝ)
  | lv1 (ed_dist : Fin (n + 1) → ℝ) (matched_ed_dist : ℝ) (matched_vocab : Fin (n + 1))
        (matched_length : ℕ) (matched_thresh matched_score : ℝ)
  | lv2 (ed_dist thresh : Fin (n + 1) → ℝ) (matched_thresh : ℝ)
        (matched_vocab : Fin (n + 1)) (matched_length : ℕ) (matched_score : ℝ)
  | lv3 (ed_dist thresh score : Fin (n + 1) → ℝ) (matched_score : ℝ)
        (matched_vocab : Fin (n + 1))
  | lv4 (ed_dist thresh score : Fin (n + 1) → ℝ)

/-- The branch at the end of `_get_matches` that builds the `Matches`
variant from `ed_dist`: soft selection only when `self.training` and
`g.relaxation_level > 0`, otherwise the hard Level-0 variant. -/
noncomputable def get_matches_result {n : ℕ} (training : Bool) (relaxation_level : ℕ)
    (temperature : ℝ) (vocab_length : Fin (n + 1) → ℕ)
    (ed_dist : Fin (n + 1) → ℝ) : MatchesRes n :=
  bif training && decide (0 < relaxation_level) then
    if relaxation_level = 1 then
      MatchesRes.lv1 ed_dist (soft_min temperature ed_dist).1 (soft_min temperature ed_dist).2
        (vocab_length (soft_min temperature ed_dist).2)
        (soft_threshold (soft_min temperature ed_dist).1)
        ((vocab_length (soft_min temperature ed_dist).2 : ℝ) *
          soft_threshold (soft_min temperature ed_dist).1)
    else if relaxation_level = 2 then
      MatchesRes.lv2 ed_dist (fun v => soft_threshold (ed_dist v))
        (soft_max temperature fun v => soft_threshold (ed_dist v)).1
        (soft_max temperature fun v => soft_threshold (ed_dist v)).2
        (vocab_length (soft_max temperature fun v => soft_threshold (ed_dist v)).2)
        ((vocab_length (soft_max temperature fun v => soft_threshold (ed_dist v)).2 : ℝ) *
          (soft_max temperature fun v => soft_threshold (ed_dist v)).1)
    else if relaxation_level = 3 then
      MatchesRes.lv3 ed_dist (fun v => soft_threshold (ed_dist v))
        (fun v => (vocab_length v : ℝ) * soft_threshold (ed_dist v))
        (soft_max temperature fun v => (vocab_length v : ℝ) * soft_threshold (ed_dist v)).1
        (soft_max temperature fun v => (vocab_length v : ℝ) * soft_threshold (ed_dist v)).2
    else
      MatchesRes.lv4 ed_dist (fun v => soft_threshold (ed_dist v))
        (fun v => (vocab_length v : ℝ) * soft_threshold (ed_dist v))
  else
    MatchesRes.lv0 ed_dist (ed_dist (argminFirst ed_dist)) (argminFirst ed_dist)
      (vocab_length (argminFirst ed_dist))
      (soft_threshold (ed_dist (argminFirst ed_dist)))
      ((vocab_length (argminFirst ed_dist) : ℝ) *
        soft_threshold (ed_dist (argminFirst ed_dist)))

/-! ### `_restore_shape`: scatter the viable-indexed rows back to the dense grid -/

/-- The dense `(batch, len_s, len_e)` grid in row-major iteration order. -/
def gridTriples (B S E : ℕ) : List (ℕ × ℕ × ℕ) :=
  (List.range B).product ((List.range S).product (List.range E))

/-- The index triples `(v_bi, v_lsi, v_lei)` of `_restore_shape`: the cells
where the boolean mask `viable` is set, in row-major (mask-indexing) order. -/
def viableTriples (B S E : ℕ) (viable : ℕ → ℕ → ℕ → Bool) : List (ℕ × ℕ × ℕ) :=
  (gridTriples B S E).filter fun t => viable t.1 t.2.1 t.2.2

/-- `ret = get_zeros(*shape); ret[v_bi, v_lsi, v_lei] = tensor`: start from
the all-zero grid and assign the rows of `tensor` (one per viable triple,
in order) at their triples. -/
def scatterZero {γ : Type*} [Zero γ] (triples : List (ℕ × ℕ × ℕ)) (vals : List γ) :
    ℕ × ℕ × ℕ → γ :=
  (triples.zip vals).foldl (fun acc p => Function.update acc p.1 p.2) fun _ => 0

/-- `_restore_shape` for a tensor whose leading axis is the viable index. -/
def restore_shape {γ : Type*} [Zero γ] (B S E : ℕ) (viable : ℕ → ℕ → ℕ → Bool)
    (vals : List γ) : ℕ × ℕ × ℕ → γ :=
  scatterZero (viableTriples B S E viable) vals

lemma foldl_update_of_ne {γ : Type*} (t : ℕ × ℕ × ℕ) :
    ∀ (l : List ((ℕ × ℕ × ℕ) × γ)) (init : ℕ × ℕ × ℕ → γ), (∀ p ∈ l, p.1 ≠ t) →
      (l.foldl (fun acc p => Function.update acc p.1 p.2) init) t = init t := by
  intro l
  induction l with
  | nil => intro init _; rfl
  | cons a r ih =>
    intro init h
    rw [List.foldl_cons, ih _ fun p hp => h p (List.mem_cons_of_mem a hp),
      Function.update_noteq (Ne.symm (h a (List.mem_cons_self a r)))]

lemma foldl_update_get {γ : Type*} :
    ∀ (l : List ((ℕ × ℕ × ℕ) × γ)) (init : ℕ × ℕ × ℕ → γ) (k : ℕ) (hk : k < l.length),
      (l.map Prod.fst).Nodup →
      (l.foldl (fun acc p => Function.update acc p.1 p.2) init) (l.get ⟨k, hk⟩).1 =
        (l.get ⟨k, hk⟩).2 := by
  intro l
  induction l with
  | nil => intro _ k hk _; exact absurd hk (Nat.not_lt_zero k)
  | cons a r ih =>
    intro init k hk hnd
    rw [List.map_cons, List.nodup_cons] at hnd
    match k with
    | 0 =>
      show (r.foldl _ (Function.update init a.1 a.2)) a.1 = a.2
      rw [foldl_update_of_ne a.1 r _ ?_, Function.update_same]
      intro p hp he
      exact hnd.1 (he ▸ List.mem_map_of_mem Prod.fst hp)
    | k' + 1 =>
      exact ih _ k' (Nat.lt_of_succ_lt_succ hk) hnd.2

lemma nodup_viableTriples (B S E : ℕ) (viable : ℕ → ℕ → ℕ → Bool) :
    (viableTriples B S E viable).Nodup := by
  apply List.Nodup.filter
  exact (List.nodup_range B).product ((List.nodup_range S).product (List.nodup_range E))

lemma mem_gridTriples {B S E : ℕ} {t : ℕ × ℕ × ℕ} :
    t ∈ gridTriples B S E ↔ t.1 < B ∧ t.2.1 < S ∧ t.2.2 < E := by
  obtain ⟨b, s, e⟩ := t
  simp [gridTriples, List.pair_mem_product, List.mem_range]

/-! ### The composed forward pass (`ExtractModel.forward`), for one sequence

The only mutable state a scoring call touches is `self._thresh`, which is
advanced inside `_get_matches` during training but never read by any live
computation (its value is only logged); every returned tensor is therefore a
pure function of the configuration, the parameters and the batch, modelled
below by `forwardOut`, while the threshold advances by
`threshAfterGetMatches`. -/

/-- The accessor `matches.ed_dist` (present in every variant). -/
def MatchesRes.edDistF {n : ℕ} : MatchesRes n → (Fin (n + 1) → ℝ)
  | lv0 e _ _ _ _ _ => e
  | lv1 e _ _ _ _ _ => e
  | lv2 e _ _ _ _ _ => e
  | lv3 e _ _ _ _ => e
  | lv4 e _ _ => e

/-- The accessor `matches.matched_score` (absent from Lv4, defaulted to 0;
the Lv4 branch of the forward pass never reads it). -/
def MatchesRes.matchedScore {n : ℕ} : MatchesRes n → ℝ
  | lv0 _ _ _ _ _ s => s
  | lv1 _ _ _ _ _ s => s
  | lv2 _ _ _ _ _ s => s
  | lv3 _ _ _ s _ => s
  | lv4 _ _ _ => 0

/-- The accessor `matches.matched_vocab` as a plain index (absent from Lv4,
defaulted to 0; the Lv4 branch never reads it). -/
def MatchesRes.matchedVocabIdx {n : ℕ} : MatchesRes n → ℕ
  | lv0 _ _ v _ _ _ => v
  | lv1 _ _ v _ _ _ => v
  | lv2 _ _ _ v _ _ => v
  | lv3 _ _ _ _ v => v
  | lv4 _ _ _ => 0

/-- The accessor `matches.score` (present in Lv3/Lv4 only, defaulted to the
zero table elsewhere; only the Lv4 branch reads it). -/
def MatchesRes.scoreF {n : ℕ} : MatchesRes n → (Fin (n + 1) → ℝ)
  | lv3 _ _ s _ _ => s
  | lv4 _ _ s => s
  | _ => fun _ => 0

/-- The configuration flags read by the forward pass. -/
structure FwdConfig where
  min_word_length : ℕ
  max_word_length : ℕ
  temperature : ℝ
  relaxation_level : ℕ
  training : Bool
  use_hamming : Bool
  anneal_factor : ℝ
  init_threshold : ℝ

/-- A single-sequence batch together with the representations produced by
the (out-of-scope) embedding component and the vocabulary buffers:
`n + 1` vocabulary entries, `u` distinct units, embedding dimension `d`.
For a single-sequence batch the padded width `batch.max_length` equals the
sequence's length `seq_len`. -/
structure FwdInput (n u d : ℕ) where
  seq_len : ℕ
  word_repr : ℕ → Fin d → ℝ
  unit_repr : Fin u → Fin d → ℝ
  vocab_length : Fin (n + 1) → ℕ
  indexed_segments : Fin (n + 1) → ℕ → Fin u
  mtl : ℕ

/-- `len_e`: the number of length offsets, `max_word_length + 1 - min_word_length`. -/
def lenEOf (cfg : FwdConfig) : ℕ := cfg.max_word_length + 1 - cfg.min_word_length

/-- The viability test of `_extract_one_span`:
`end_candidates = start + (offset + min_word_length) - 1 < length`. -/
def spanViable (cfg : FwdConfig) (L s e : ℕ) : Bool :=
  decide (s + (e + cfg.min_word_length) - 1 < L)

/-- The viable `(start, length-offset)` pairs in mask row-major order. -/
def viableSpans (cfg : FwdConfig) (L : ℕ) : List (ℕ × ℕ) :=
  ((List.range L).product (List.range (lenEOf cfg))).filter fun p =>
    spanViable cfg L p.1 p.2

variable {n u d : ℕ}

/-- The distance-matrix entry between the gathered representation at span
position `p` of the span starting at `s`, and unit `j`. -/
noncomputable def unitDist (cfg : FwdConfig) (inp : FwdInput n u d) (s p : ℕ)
    (j : Fin u) : ℝ :=
  bif cfg.use_hamming then
    hammingDist (inp.word_repr (word_pos inp.seq_len s p)) (inp.unit_repr j)
  else
    cosineDist (inp.word_repr (word_pos inp.seq_len s p)) (inp.unit_repr j)

/-- `ed_dist` for the span `(s, e)` against vocabulary entry `v`: the DP
table read at `(span_length, vocab_entry_length)`, with the substitution
cost at cell `(ls, lt)` looked up through `indexed_segments[v][lt - 1]`. -/
noncomputable def spanEdDist (cfg : FwdConfig) (inp : FwdInput n u d) (s e : ℕ)
    (v : Fin (n + 1)) : ℝ :=
  fsVal cfg.max_word_length inp.mtl
    (fun ls lt => unitDist cfg inp s (ls - 1) (inp.indexed_segments v (lt - 1)))
    (e + cfg.min_word_length) (inp.vocab_length v)

/-- The `Matches` variant produced for the span `(s, e)`. -/
noncomputable def spanMatches (cfg : FwdConfig) (inp : FwdInput n u d) (s e : ℕ) :
    MatchesRes n :=
  get_matches_result cfg.training cfg.relaxation_level cfg.temperature
    inp.vocab_length (spanEdDist cfg inp s e)

/-- A match field scattered back to the dense `(batch, len_s, len_e)` grid. -/
noncomputable def restoredField {γ : Type*} [Zero γ] (cfg : FwdConfig)
    (inp : FwdInput n u d) (f : MatchesRes n → γ) : ℕ × ℕ × ℕ → γ :=
  restore_shape 1 inp.seq_len (lenEOf cfg)
    (fun _ s e => spanViable cfg inp.seq_len s e)
    ((viableSpans cfg inp.seq_len).map fun p => f (spanMatches cfg inp p.1 p.2))

/-- `matched_score.flatten(['len_s', 'len_e'], 'cand')`. -/
noncomputable def flatMatchedScore (cfg : FwdConfig) (inp : FwdInput n u d) : List ℝ :=
  (List.range inp.seq_len).flatMap fun s => (List.range (lenEOf cfg)).map fun e =>
    restoredField cfg inp MatchesRes.matchedScore (0, s, e)

/-- `matched_vocab.flatten(['len_s', 'len_e'], 'cand')`. -/
noncomputable def flatMatchedVocab (cfg : FwdConfig) (inp : FwdInput n u d) : List ℕ :=
  (List.range inp.seq_len).flatMap fun s => (List.range (lenEOf cfg)).map fun e =>
    restoredField cfg inp MatchesRes.matchedVocabIdx (0, s, e)

/-- `score.flatten(['len_s', 'len_e', 'vocab'], 'cand')` (Level-4 branch). -/
noncomputable def flatLv4Score (cfg : FwdConfig) (inp : FwdInput n u d) : List ℝ :=
  (List.range inp.seq_len).flatMap fun s => (List.range (lenEOf cfg)).flatMap fun e =>
    (List.finRange (n + 1)).map fun v =>
      restoredField cfg inp MatchesRes.scoreF (0, s, e) v

/-- `x.max(dim='cand')`: the maximum together with its first index. -/
noncomputable def listArgmax : List ℝ → ℕ × ℝ
  | [] => (0, 0)
  | a :: r =>
    r.enum.foldl (fun best p => if best.2 < p.2 then (p.1 + 1, p.2) else best) (0, a)

/-- The value component of `_soft_max` over a flattened candidate list. -/
noncomputable def listSoftmaxVal (T : ℝ) (l : List ℝ) : ℝ :=
  (l.map fun x => x * (Real.exp (x / T) / (l.map fun y => Real.exp (y / T)).sum)).sum

/-- The outputs of `ExtractModel.forward` (single-sequence batch). -/
structure FwdOut (n : ℕ) where
  start : ℕ
  endPos : ℕ
  best_matched_score : ℝ
  best_matched_vocab : ℕ
  match_results : List (MatchesRes n)
  ed_dist_grid : ℕ × ℕ × ℕ → Fin (n + 1) → ℝ
  matched_score_grid : ℕ × ℕ × ℕ → ℝ

/-- The tensors returned by `ExtractModel.forward`: Level-4 training
flattens `(len_s, len_e, vocab)` jointly; every other case flattens the
restored `matched_score` over `(len_s, len_e)` and gathers
`matched_vocab` at the best candidate; soft-max selection of the score is
used during training at levels 1-3, hard max otherwise. -/
noncomputable def forwardOut (cfg : FwdConfig) (inp : FwdInput n u d) : FwdOut n :=
  bif cfg.training && decide (cfg.relaxation_level = 4) then
    { start := (listArgmax (flatLv4Score cfg inp)).1 / (lenEOf cfg * (n + 1)),
      endPos := (listArgmax (flatLv4Score cfg inp)).1 % (lenEOf cfg * (n + 1)) / (n + 1) +
        (listArgmax (flatLv4Score cfg inp)).1 / (lenEOf cfg * (n + 1)) +
        cfg.min_word_length - 1,
      best_matched_score := listSoftmaxVal cfg.temperature (flatLv4Score cfg inp),
      best_matched_vocab := (listArgmax (flatLv4Score cfg inp)).1 % (n + 1),
      match_results := (viableSpans cfg inp.seq_len).map fun p =>
        spanMatches cfg inp p.1 p.2,
      ed_dist_grid := restoredField cfg inp MatchesRes.edDistF,
      matched_score_grid := restoredField cfg inp MatchesRes.matchedScore }
  else
    { start := (listArgmax (flatMatchedScore cfg inp)).1 / lenEOf cfg,
      endPos := (listArgmax (flatMatchedScore cfg inp)).1 % lenEOf cfg +
        (listArgmax (flatMatchedScore cfg inp)).1 / lenEOf cfg +
        cfg.min_word_length - 1,
      best_matched_score :=
        bif cfg.training && decide (cfg.relaxation_level = 1 ∨
            cfg.relaxation_level = 2 ∨ cfg.relaxation_level = 3) then
          listSoftmaxVal cfg.temperature (flatMatchedScore cfg inp)
        else (listArgmax (flatMatchedScore cfg inp)).2,
      best_matched_vocab :=
        (flatMatchedVocab cfg inp).getD (listArgmax (flatMatchedScore cfg inp)).1 0,
      match_results := (viableSpans cfg inp.seq_len).map fun p =>
        spanMatches cfg inp p.1 p.2,
      ed_dist_grid := restoredField cfg inp MatchesRes.edDistF,
      matched_score_grid := restoredField cfg inp MatchesRes.matchedScore }

/-- One scoring call: the returned tensors together with the threshold
state after the call. -/
noncomputable def forwardPass (cfg : FwdConfig) (inp : FwdInput n u d)
    (thresh : Option ℝ) : FwdOut n × Option ℝ :=
  (forwardOut cfg inp,
    threshAfterGetMatches cfg.training cfg.anneal_factor cfg.init_threshold thresh)

/-! ### Claim C1: the DP band -/

/-- C1 counterexample: in a `3 × 3` grid the cell `(ls, lt) = (1, 3)` has
`|ls - lt| = 2 ≤ 2`, yet it is not assigned by the recurrence (its key is
absent from `fs`) and the assembled table holds the sentinel `99.9` there,
refuting the claimed "if and only if `|ls - lt| ≤ 2`" characterization. -/
theorem C1_counterexample :
    ((1 : ℤ) - 3).natAbs ≤ 2 ∧
    fsMem 3 3 (fun _ _ => (0 : ℚ)) 1 3 = false ∧
    fsVal 3 3 (fun _ _ => (0 : ℚ)) 1 3 = 999 / 10 := by
  refine ⟨by norm_num, by decide, ?_⟩
  norm_num [fsVal, fsP, fsRow, inBand, minLst]

/-- C1 (amended): for `1 ≤ ls ≤ msl` and `1 ≤ lt ≤ mtl`, the cell
`f(ls, lt)` holds a DP-computed value if and only if `ls - 2 ≤ lt ≤ ls + 1`
(the asymmetric band actually visited by
`range(max(ls - 2, 1), min(ls + 2, mtl + 1))`), and every cell outside that
band holds the sentinel `99.9` when the table is assembled. -/
theorem C1_band_amended (msl mtl ls lt : ℕ) (sub : ℕ → ℕ → ℚ)
    (hls1 : 1 ≤ ls) (hls2 : ls ≤ msl) (hlt1 : 1 ≤ lt) (hlt2 : lt ≤ mtl) :
    (fsMem msl mtl sub ls lt = true ↔ (ls ≤ lt + 2 ∧ lt ≤ ls + 1)) ∧
    (fsMem msl mtl sub ls lt = false → fsVal msl mtl sub ls lt = 999 / 10) := by
  obtain ⟨ls', rfl⟩ : ∃ m, ls = m + 1 := ⟨ls - 1, by omega⟩
  obtain ⟨lt', rfl⟩ : ∃ m, lt = m + 1 := ⟨lt - 1, by omega⟩
  refine ⟨?_, fun h => fsVal_of_not_mem msl mtl sub _ _ (by omega) (by omega) h⟩
  rw [fsMem_eq_inBand, inBand]
  simp only [decide_eq_true_eq]
  omega

/-- C1 witness: the amended band test at the concrete in-band cell
`(2, 3)` of a `3 × 3` grid. -/
theorem C1_witness : fsMem 3 3 (fun _ _ => (0 : ℚ)) 2 3 = true :=
  (C1_band_amended 3 3 2 3 (fun _ _ => 0) (by norm_num) (by norm_num)
    (by norm_num) (by norm_num)).1.mpr (by omega)

/-! ### Claim C2: the insertion/deletion costs -/

/-- C2 counterexample: with `msl = mtl = 1` and every substitution cost
`10`, the code's DP yields `f(1,1) = 10` (both edit transitions cost
`1 + 100`), whereas the claimed cheap-edit (unit-cost) variant would yield
`2`; the code has no configuration under which the unit cost is used. -/
theorem C2_counterexample :
    fsVal 1 1 (fun _ _ => (10 : ℚ)) 1 1 = 10 ∧
    fsValUnit 1 1 (fun _ _ => (10 : ℚ)) 1 1 = 2 := by
  constructor
  · norm_num [fsVal, fsP, fsRow, inBand, minLst]
  · norm_num [fsValUnit, fsPUnit, fsRowUnit, inBand, minLst]

/-- C2 (amended): the insertion and deletion costs added on the
`f(ls-1, lt)` and `f(ls, lt-1)` transitions are both the fixed constant
`100` (an effectively-substitution-only regime); no configured policy and
no unit-cost variant exist in the code. -/
theorem C2_cost_amended (msl mtl : ℕ) (sub : ℕ → ℕ → ℚ) (ls lt : ℕ)
    (h : fsMem msl mtl sub (ls + 1) (lt + 1) = true)
    (h1 : fsMem msl mtl sub ls (lt + 1) = true)
    (h2 : fsMem msl mtl sub (ls + 1) lt = true)
    (h3 : fsMem msl mtl sub ls lt = true) :
    fsVal msl mtl sub (ls + 1) (lt + 1) =
      min (fsVal msl mtl sub ls (lt + 1) + 100)
        (min (fsVal msl mtl sub (ls + 1) lt + 100)
          (fsVal msl mtl sub ls lt + sub (ls + 1) (lt + 1))) :=
  fsVal_rec msl mtl sub ls lt h h1 h2 h3

/-- C2 witness: the amended recurrence at the concrete cell `(2, 2)` of a
`2 × 2` grid with zero substitution costs. -/
theorem C2_witness :
    fsVal 2 2 (fun _ _ => (0 : ℚ)) 2 2 =
      min (fsVal 2 2 (fun _ _ => (0 : ℚ)) 1 2 + 100)
        (min (fsVal 2 2 (fun _ _ => (0 : ℚ)) 2 1 + 100)
          (fsVal 2 2 (fun _ _ => (0 : ℚ)) 1 1 + 0)) := by
  have h := C2_cost_amended 2 2 (fun _ _ => (0 : ℚ)) 1 1
    (by decide) (by decide) (by decide) (by decide)
  exact h

/-! ### Claim C3: the hamming-style distance -/

/-- C3 counterexample: for the 2-dimensional vectors `x = (0,0)` and
`y = (2,2)`, `_get_hamming_matrix` yields `(|0-2| + |0-2|) / 4 = 1`,
while the claimed "mean absolute difference scaled by the divisor 4"
yields `((2+2)/2)/4 = 1/2`. -/
theorem C3_counterexample :
    get_hamming_matrix (fun (_ : Fin 1) (_ : Fin 2) => (0 : ℚ))
      (fun (_ : Fin 1) (_ : Fin 2) => (2 : ℚ)) 0 0 = 1 ∧
    hammingDistSpec (fun (_ : Fin 2) => (0 : ℚ)) (fun _ => (2 : ℚ)) = 1 / 2 ∧
    get_hamming_matrix (fun (_ : Fin 1) (_ : Fin 2) => (0 : ℚ))
        (fun (_ : Fin 1) (_ : Fin 2) => (2 : ℚ)) 0 0 ≠
      hammingDistSpec (fun (_ : Fin 2) => (0 : ℚ)) (fun _ => (2 : ℚ)) := by
  refine ⟨?_, ?_, ?_⟩ <;>
    norm_num [get_hamming_matrix, hammingDist, hammingDistSpec, Fin.sum_univ_two]

/-- C3 (amended): the distance computed when `use_hamming` is configured is
the *sum* of absolute differences over the feature dimension divided by 4,
i.e. `d` times the claimed mean-based quantity for `d`-dimensional
embeddings. -/
theorem C3_hamming_amended {d : ℕ} (x y : Fin d → ℚ) (hd : 0 < d) :
    hammingDist x y = (d : ℚ) * hammingDistSpec x y := by
  have hd' : (d : ℚ) ≠ 0 := Nat.cast_ne_zero.mpr hd.ne'
  rw [hammingDist, hammingDistSpec]
  field_simp
  ring

/-- C3 witness: the amended relation at the concrete input
`x = (0,0)`, `y = (2,2)`. -/
theorem C3_witness :
    hammingDist (fun _ : Fin 2 => (0 : ℚ)) (fun _ => (2 : ℚ)) =
      ((2 : ℕ) : ℚ) * hammingDistSpec (fun _ : Fin 2 => (0 : ℚ)) (fun _ => (2 : ℚ)) :=
  C3_hamming_amended _ _ (by norm_num)

/-! ### Claim C4: gather clamping -/

/-- C4 counterexample: batch of lengths `[2, 4]` (padded width
`max_length = 4`), viable span `start = 0`, `length = 2` of the first
sequence (`0 + 2 - 1 < 2`), gather offset `2`: the code clamps at
`max_length - 1 = 3` and gathers position `2`, which lies past the end of
the span's own sequence; the claimed clamp at `sequence_length - 1 = 1`
would gather position `1`. -/
theorem C4_counterexample :
    (0 + 2 - 1 < 2) ∧ (2 ≤ 4) ∧
    word_pos 4 0 2 = 2 ∧
    word_pos_spec 2 0 2 = 1 ∧
    word_pos 4 0 2 ≠ word_pos_spec 2 0 2 := by decide

/-- C4 (amended): for every viable span the gatherer reads the embeddings
at offsets `start .. start + max_word_length - 1` with each position
clamped at `batch.max_length - 1` (the batch-wide padded width, not the
span's own sequence length): every gathered position stays inside the
padded batch buffer, and positions inside the span's own sequence are left
unchanged. -/
theorem C4_gather_amended (max_length seq_len start len offset : ℕ)
    (hviable : start + len - 1 < seq_len) (hseq : seq_len ≤ max_length) :
    word_pos max_length start offset < max_length ∧
    (start + offset < seq_len → word_pos max_length start offset = start + offset) := by
  unfold word_pos
  omega

/-- C4 witness: the amended bounds at the concrete viable span of the
counterexample batch. -/
theorem C4_witness :
    word_pos 4 0 2 < 4 ∧ word_pos 4 0 1 = 0 + 1 := by
  refine ⟨(C4_gather_amended 4 2 0 2 2 (by norm_num) (by norm_num)).1, ?_⟩
  exact (C4_gather_amended 4 2 0 2 1 (by norm_num) (by norm_num)).2 (by norm_num)

/-! ### Claim C5: the shape of `_soft_threshold` -/

lemma soft_threshold_of_le (x : ℝ) (hx : (1 : ℝ) / 2 ≤ x) :
    soft_threshold x = Real.exp (1 - 2 * x) / 2 := by
  have h2 : ¬ (0 < 1 - 2 * x) := by linarith
  rw [soft_threshold, celu, if_neg h2]
  ring

lemma soft_threshold_of_ge (x : ℝ) (hx : x ≤ 0) :
    soft_threshold x = 1 - x := by
  have h2 : 0 < 1 - 2 * x := by linarith
  rw [soft_threshold, celu, if_pos h2]
  ring

lemma soft_threshold_tendsto_atTop :
    Filter.Tendsto soft_threshold Filter.atTop (nhds 0) := by
  have h1 : Filter.Tendsto (fun x : ℝ => 1 - 2 * x) Filter.atTop Filter.atBot := by
    apply Filter.tendsto_atBot.2
    intro b
    filter_upwards [Filter.eventually_ge_atTop ((1 - b) / 2)] with x hx
    linarith
  have h2 := (Real.tendsto_exp_atBot.comp h1).div_const 2
  rw [zero_div] at h2
  apply h2.congr'
  filter_upwards [Filter.eventually_ge_atTop ((1 : ℝ) / 2)] with x hx
  exact (soft_threshold_of_le x hx).symm

lemma soft_threshold_tendsto_atBot :
    Filter.Tendsto soft_threshold Filter.atBot Filter.atTop := by
  have h1 : Filter.Tendsto (fun x : ℝ => 1 - x) Filter.atBot Filter.atTop := by
    apply Filter.tendsto_atTop.2
    intro b
    filter_upwards [Filter.eventually_le_atBot (1 - b)] with x hx
    linarith
  apply h1.congr'
  filter_upwards [Filter.eventually_le_atBot (0 : ℝ)] with x hx
  exact (soft_threshold_of_ge x hx).symm

/-- C5 counterexample: `soft_threshold` does not tend to `1` as
`x → -∞`; on `x ≤ 1/2` it equals `1 - x`, so it grows without bound
(e.g. `soft_threshold (-1) = 2`). -/
theorem C5_counterexample :
    ¬ Filter.Tendsto soft_threshold Filter.atBot (nhds 1) ∧
    soft_threshold (-1) = 2 := by
  refine ⟨not_tendsto_nhds_of_tendsto_atTop soft_threshold_tendsto_atBot 1, ?_⟩
  rw [soft_threshold_of_ge (-1) (by norm_num)]
  norm_num

/-- C5 (amended): `soft_threshold (1/2) = 1/2` exactly,
`soft_threshold x → 0` as `x → +∞`, and as `x → -∞` the function tends to
`+∞` (it equals `1 - x` for `x ≤ 1/2`), not to `1`. -/
theorem C5_soft_threshold_amended :
    soft_threshold (1 / 2) = 1 / 2 ∧
    Filter.Tendsto soft_threshold Filter.atTop (nhds 0) ∧
    Filter.Tendsto soft_threshold Filter.atBot Filter.atTop := by
  refine ⟨?_, soft_threshold_tendsto_atTop, soft_threshold_tendsto_atBot⟩
  rw [soft_threshold, celu]
  norm_num

/-! ### Claim C6: mutation of the running threshold -/

/-- C6 counterexample: a training-mode `_get_matches` call mutates
`self._thresh` inside the scoring core: with `anneal_factor = 0.999` a
stored threshold of `1` becomes `0.999 ≠ 1` during the call. -/
theorem C6_counterexample :
    threshAfterGetMatches true (999 / 1000 : ℚ) (1 / 20) (some 1) ≠ some 1 := by
  have : threshAfterGetMatches true (999 / 1000 : ℚ) (1 / 20) (some 1) =
      some (max (1 * (999 / 1000)) (1 / 1000)) := rfl
  rw [this]
  intro hcontra
  rw [Option.some_inj] at hcontra
  have h1 : (1 : ℚ) * (999 / 1000) = 999 / 1000 := by norm_num
  rw [h1, max_eq_left (by norm_num)] at hcontra
  norm_num at hcontra

/-- C6 (amended): the running threshold is mutated by the scoring core
itself: a training-mode `_get_matches` call multiplies it by
`anneal_factor` (or initializes it to `init_threshold`) and floors it at
`0.001`; only in evaluation mode is it left untouched. -/
theorem C6_thresh_amended (a i c : ℚ) (t : Option ℚ) :
    threshAfterGetMatches false a i t = t ∧
    threshAfterGetMatches true a i (some c) = some (max (c * a) (1 / 1000)) ∧
    threshAfterGetMatches true a i none = some (max i (1 / 1000)) :=
  ⟨rfl, rfl, rfl⟩

/-! ### Claim C7: evaluation always takes the Level-0 path -/

lemma foldl_argmin_le [LinearOrder β] {m : ℕ} (v : Fin (m + 1) → β) :
    ∀ (l : List (Fin (m + 1))) (b : Fin (m + 1)),
      v (l.foldl (fun best i => if v i < v best then i else best) b) ≤ v b ∧
      ∀ i ∈ l, v (l.foldl (fun best i => if v i < v best then i else best) b) ≤ v i := by
  intro l
  induction l with
  | nil => exact fun b => ⟨le_refl _, by simp⟩
  | cons a r ih =>
    intro b
    rw [List.foldl_cons]
    rcases ih (if v a < v b then a else b) with ⟨h1, h2⟩
    have hb : v (if v a < v b then a else b) ≤ v b := by
      split
      · exact le_of_lt ‹_›
      · exact le_refl _
    have ha : v (if v a < v b then a else b) ≤ v a := by
      split
      · exact le_refl _
      · exact not_lt.mp ‹_›
    refine ⟨h1.trans hb, ?_⟩
    intro i hi
    rcases List.mem_cons.mp hi with rfl | hi
    · exact h1.trans ha
    · exact h2 i hi

lemma argminFirst_le [LinearOrder β] {m : ℕ} (v : Fin (m + 1) → β) (i : Fin (m + 1)) :
    v (argminFirst v) ≤ v i :=
  (foldl_argmin_le v (List.finRange (m + 1)) 0).2 i (List.mem_finRange i)

/-- C7: whenever the model is not training, regardless of the configured
relaxation level, the produced match result is the Level-0 variant:
`matched_ed_dist`/`matched_vocab` are the hard minimum of `ed_dist` over
the vocabulary axis (the first index attaining it), `matched_length` is
the length of `matched_vocab`, `matched_thresh = soft_threshold` of the
minimal distance, and `matched_score = matched_length * matched_thresh`. -/
theorem C7_eval_level0 {n : ℕ} (relaxation_level : ℕ) (temperature : ℝ)
    (vocab_length : Fin (n + 1) → ℕ) (ed_dist : Fin (n + 1) → ℝ) :
    (get_matches_result false relaxation_level temperature vocab_length ed_dist =
      MatchesRes.lv0 ed_dist (ed_dist (argminFirst ed_dist)) (argminFirst ed_dist)
        (vocab_length (argminFirst ed_dist))
        (soft_threshold (ed_dist (argminFirst ed_dist)))
        ((vocab_length (argminFirst ed_dist) : ℝ) *
          soft_threshold (ed_dist (argminFirst ed_dist)))) ∧
    (∀ w, ed_dist (argminFirst ed_dist) ≤ ed_dist w) :=
  ⟨rfl, fun w => argminFirst_le ed_dist w⟩

/-! ### Claim C8: shape restoration -/

/-- C8: after `_restore_shape`, every non-viable grid cell holds exactly
zero, every in-range viable cell is a scatter target, and the `k`-th
viable triple (mask row-major order) holds the `k`-th row of the
viable-indexed tensor; this holds for values of any type, hence for every
field of every relaxation level's match result. -/
theorem C8_restore_shape {γ : Type*} [Zero γ] (B S E : ℕ)
    (viable : ℕ → ℕ → ℕ → Bool) (vals : List γ)
    (hlen : vals.length = (viableTriples B S E viable).length) :
    (∀ b s e, viable b s e = false → restore_shape B S E viable vals (b, s, e) = 0) ∧
    (∀ b s e, b < B → s < S → e < E → viable b s e = true →
      (b, s, e) ∈ viableTriples B S E viable) ∧
    (∀ k, ∀ hk : k < (viableTriples B S E viable).length,
      restore_shape B S E viable vals ((viableTriples B S E viable).get ⟨k, hk⟩) =
        vals.get ⟨k, by omega⟩) := by
  refine ⟨?_, ?_, ?_⟩
  · intro b s e hv
    apply foldl_update_of_ne
    intro p hp heq
    obtain ⟨pa, pb⟩ := p
    have hmem := (List.of_mem_zip hp).1
    rw [viableTriples, List.mem_filter] at hmem
    have hv' := hmem.2
    rw [show pa = (b, s, e) from heq] at hv'
    simp only [decide_eq_true_eq] at hv'
    rw [hv'] at hv
    exact Bool.true_eq_false.mp hv
  · intro b s e hb hs he hv
    rw [viableTriples, List.mem_filter]
    exact ⟨mem_gridTriples.mpr ⟨hb, hs, he⟩, hv⟩
  · intro k hk
    have hkz : k < ((viableTriples B S E viable).zip vals).length := by
      rw [List.length_zip]
      omega
    have hnd : (((viableTriples B S E viable).zip vals).map Prod.fst).Nodup := by
      rw [List.map_fst_zip _ _ (by omega)]
      exact nodup_viableTriples B S E viable
    have hget := foldl_update_get ((viableTriples B S E viable).zip vals)
      (fun _ => 0) k hkz hnd
    have hz : ((viableTriples B S E viable).zip vals).get ⟨k, hkz⟩ =
        ((viableTriples B S E viable).get ⟨k, hk⟩, vals.get ⟨k, by omega⟩) := by
      simp [List.get_eq_getElem, List.getElem_zip]
    rw [hz] at hget
    exact hget

/-- C8 witness: a concrete `1 × 2 × 2` grid with the diagonal viable and
values `[5, 7]`: the non-viable cell `(0,0,1)` restores to `0` and the
second viable cell `(0,1,1)` restores to `7`. -/
theorem C8_witness :
    restore_shape 1 2 2 (fun _ s e => decide (s = e)) ([5, 7] : List ℚ) (0, 0, 1) = 0 ∧
    restore_shape 1 2 2 (fun _ s e => decide (s = e)) ([5, 7] : List ℚ) (0, 1, 1) = 7 := by
  have h := C8_restore_shape 1 2 2 (fun _ s e => decide (s = e)) ([5, 7] : List ℚ) rfl
  refine ⟨h.1 0 0 1 rfl, ?_⟩
  have h2 := h.2.2 1 (by decide)
  have e1 : (viableTriples 1 2 2 (fun _ s e => decide (s = e))).get
      ⟨1, by decide⟩ = (0, 1, 1) := rfl
  rw [← e1]
  exact h2

/-! ### Claim C9: determinism of the scoring call -/

/-- C9: the scoring core is a deterministic function of its inputs,
parameters and configuration: with the temperature fixed in the
configuration, running the forward pass again (even on the threshold state
left behind by the first run) returns the same outputs — the only state a
call mutates, the running threshold, is never read by the output path. -/
theorem C9_forward_deterministic {n u d : ℕ} (cfg : FwdConfig)
    (inp : FwdInput n u d) (st st2 : Option ℝ) :
    (forwardPass cfg inp ((forwardPass cfg inp st).2)).1 = (forwardPass cfg inp st).1 ∧
    (forwardPass cfg inp st).1 = (forwardPass cfg inp st2).1 :=
  ⟨rfl, rfl⟩

/-! ### Claim C10: nonnegativity of `ed_dist` -/

lemma abs_dot_le_sqrt_mul_sqrt {d : ℕ} (x y : Fin d → ℝ) :
    |∑ k, x k * y k| ≤ Real.sqrt (∑ k, x k ^ 2) * Real.sqrt (∑ k, y k ^ 2) := by
  have h := Finset.sum_mul_sq_le_sq_mul_sq Finset.univ x y
  rw [← Real.sqrt_sq_eq_abs, ← Real.sqrt_mul (by positivity)]
  exact Real.sqrt_le_sqrt h

lemma cosineDist_mem_unit {d : ℕ} (x y : Fin d → ℝ) :
    0 ≤ cosineDist x y ∧ cosineDist x y ≤ 1 := by
  have hA : (0 : ℝ) < Real.sqrt (∑ k, x k ^ 2) + 1 / 10 ^ 8 := by positivity
  have hB : (0 : ℝ) < Real.sqrt (∑ k, y k ^ 2) + 1 / 10 ^ 8 := by positivity
  have hcos : |(∑ k, x k * y k) / (Real.sqrt (∑ k, x k ^ 2) + 1 / 10 ^ 8)
      / (Real.sqrt (∑ k, y k ^ 2) + 1 / 10 ^ 8)| ≤ 1 := by
    rw [div_div, abs_div, abs_of_pos (mul_pos hA hB), div_le_one (mul_pos hA hB)]
    calc |∑ k, x k * y k|
        ≤ Real.sqrt (∑ k, x k ^ 2) * Real.sqrt (∑ k, y k ^ 2) :=
          abs_dot_le_sqrt_mul_sqrt x y
      _ ≤ (Real.sqrt (∑ k, x k ^ 2) + 1 / 10 ^ 8) *
            (Real.sqrt (∑ k, y k ^ 2) + 1 / 10 ^ 8) := by
          apply mul_le_mul (le_add_of_nonneg_right (by norm_num))
            (le_add_of_nonneg_right (by norm_num)) (Real.sqrt_nonneg _) hA.le
  obtain ⟨hlo, hhi⟩ := abs_le.mp hcos
  unfold cosineDist
  constructor <;> linarith

/-- C10: every entry of the `ed_dist` table is nonnegative: the per-cell
substitution costs are nonnegative (the epsilon-stabilized cosine distance
lies in `[0, 1]`; the hamming-style distance is a sum of absolute values
divided by 4), the base cases `f(i,0) = i` and `f(0,j) = j` are
nonnegative, every transition adds a nonnegative amount, and unreached
cells hold the sentinel `99.9`. -/
theorem C10_ed_dist_nonneg :
    (∀ (msl mtl : ℕ) (sub : ℕ → ℕ → ℝ), (∀ a b, 0 ≤ sub a b) →
      ∀ ls lt, 0 ≤ fsVal msl mtl sub ls lt) ∧
    (∀ (d : ℕ) (x y : Fin d → ℝ), 0 ≤ cosineDist x y ∧ cosineDist x y ≤ 1) ∧
    (∀ (d : ℕ) (x y : Fin d → ℝ), 0 ≤ hammingDist x y) := by
  refine ⟨?_, fun d x y => cosineDist_mem_unit x y, ?_⟩
  · intro msl mtl sub hsub ls lt
    exact fsP_snd_nonneg msl mtl sub hsub ls lt
  · intro d x y
    rw [hammingDist]
    apply div_nonneg _ (by norm_num)
    apply Finset.sum_nonneg
    intro k _
    positivity

/-- C10 witness: nonnegativity of the concrete DP entry `f(2, 2)` of a
`2 × 2` grid with all substitution costs `1`. -/
theorem C10_witness : (0 : ℝ) ≤ fsVal 2 2 (fun _ _ => (1 : ℝ)) 2 2 :=
  C10_ed_dist_nonneg.1 2 2 (fun _ _ => 1) (fun _ _ => zero_le_one) 2 2

end Xib
